import Mathlib

/-!
Shallow embedding of the rule-based commit-message classifier in
`backend/main.py`.  Strings are modelled as Lean `String` / `List Char`
(the inputs of interest are ASCII); Python float confidences are modelled
in hundredths as `Nat` (0.95 ↦ 95, 0.6 + k*0.1 ↦ 60 + k*10, …), which is
exact for every value and comparison the code performs; fallible code
returns `Except`.
-/

namespace CommitClassifier

/-- ASCII whitespace, the characters matched both by Python `str.strip()`
and by the regex class `\s` on ASCII text. -/
def isWs (c : Char) : Bool :=
  c = ' ' || c = '\t' || c = '\n' || c = '\r' || c = '\x0b' || c = '\x0c'

/-- Python `str.strip()`: remove leading and trailing whitespace. -/
def pyStripL (l : List Char) : List Char :=
  ((l.dropWhile isWs).reverse.dropWhile isWs).reverse

/-- Backtracking semantics of the regex tail `\s*.+` (from the patterns
`^<type>(\([^)]+\))?:\s*.+`): either `.` consumes the head here (any
character except a newline), or the head is consumed by `\s*` and we
continue. -/
def tailMatch : List Char → Bool
  | [] => false
  | c :: cs => (!(c = '\n')) || (isWs c && tailMatch cs)

/-- After `(` and one non-`)` character, consume the rest of `[^)]+` up to
the closing `)`; returns the remainder after `)`. -/
def scopeRest : List Char → Option (List Char)
  | [] => none
  | c :: cs => if c = ')' then some cs else scopeRest cs

/-- The regex piece `\([^)]+\)` applied right after the opening `(` has
been consumed: needs at least one non-`)` character, then the rest up to
`)`.  Returns the remainder after `)`. -/
def scopeAfter : List Char → Option (List Char)
  | [] => none
  | c :: cs => if c = ')' then none else scopeRest cs

/-- The regex piece `:\s*.+`: a literal colon followed by the whitespace
run and at least one `.`-matchable character. -/
def colonTail : List Char → Bool
  | [] => false
  | c :: r => if c = ':' then tailMatch r else false

/-- The part of the pattern `(\([^)]+\))?:\s*.+` that follows the type
literal.  If the next character is `(`, only the scoped alternative can
apply (the group-less alternative would need `:` here); otherwise the
group is skipped and `:` must follow. -/
def afterType : List Char → Bool
  | [] => false
  | c :: r =>
    if c = '(' then
      match scopeAfter r with
      | some rest => colonTail rest
      | none => false
    else if c = ':' then tailMatch r
    else false

/-- Case-insensitive literal matching: `t` is the lowercase pattern
literal; succeeds when the lowered input starts with `t`, returning the
rest of the input. -/
def dropPrefixCI : List Char → List Char → Option (List Char)
  | [], s => some s
  | _ :: _, [] => none
  | c :: cs, d :: ds => if Char.toLower d = c then dropPrefixCI cs ds else none

/-- `re.match(r'^<t>(\([^)]+\))?:\s*.+', m, re.IGNORECASE)` viewed as a
boolean: the anchored pattern for type literal `t` matches a prefix of
`m`.  Lowering only the literal comparison is faithful because `(`, `)`,
`:`, whitespace and `\n` are fixed by ASCII case conversion. -/
def matchesConv (t : List Char) (m : List Char) : Bool :=
  match dropPrefixCI t m with
  | some rest => afterType rest
  | none => false

/-- The `COMMIT_TYPES` table: identifier and keyword list per category, in
declaration order (the human-readable description strings are never used
by the classification logic and are omitted). -/
def COMMIT_TYPES : List (String × List String) := [
  ("feat", ["add", "new", "implement", "create", "introduce"]),
  ("fix", ["fix", "bug", "resolve", "correct", "repair", "patch"]),
  ("docs", ["doc", "documentation", "readme", "comment", "guide"]),
  ("style", ["style", "format", "indent", "whitespace", "lint"]),
  ("refactor", ["refactor", "restructure", "optimize", "improve", "clean"]),
  ("perf", ["performance", "perf", "speed", "optimize", "faster"]),
  ("test", ["test", "testing", "spec", "coverage", "unit", "integration"]),
  ("build", ["build", "dependency", "deps", "package", "npm", "pip"]),
  ("ci", ["ci", "cd", "pipeline", "jenkins", "travis", "github actions"]),
  ("chore", ["chore", "update", "upgrade", "maintenance", "config"]),
  ("revert", ["revert", "undo", "rollback"])]

/-- Boolean list prefix test. -/
def isPrefixOfL : List Char → List Char → Bool
  | [], _ => true
  | _ :: _, [] => false
  | c :: cs, d :: ds => (c = d) && isPrefixOfL cs ds

/-- Python substring containment `needle in hay`. -/
def isSubstr (n : List Char) : List Char → Bool
  | [] => isPrefixOfL n []
  | c :: cs => isPrefixOfL n (c :: cs) || isSubstr n cs

/-- `sum(1 for kw in keywords if kw in message_lower)`. -/
def countKw (kws : List String) (lowm : List Char) : Nat :=
  (kws.filter (fun kw => isSubstr kw.data lowm)).length

/-- `calculate_confidence`, in hundredths: 0.95 on a conventional-pattern
match of the category's own pattern, otherwise `min(0.6 + k*0.1, 0.9)` for
`k > 0` keyword hits, else 0.5. -/
def calculate_confidence (m : List Char) (name : List Char) (kws : List String) : Nat :=
  if matchesConv name m then 95
  else
    if countKw kws (m.map Char.toLower) > 0
    then min (60 + countKw kws (m.map Char.toLower) * 10) 90
    else 50

/-- One iteration of the keyword-fallback loop in `classify_commit`:
categories with no keyword hit are skipped, otherwise the best
`(type, confidence)` pair is replaced exactly when the new confidence is
strictly greater. -/
def fallbackStep (m : List Char) (b : String × Nat) (ti : String × List String) : String × Nat :=
  if countKw ti.2 (m.map Char.toLower) > 0 then
    if calculate_confidence m ti.1.data ti.2 > b.2
    then (ti.1, calculate_confidence m ti.1.data ti.2)
    else b
  else b

/-- The keyword-fallback loop, started from `best_match = 'chore'`,
`best_confidence = 0.0`. -/
def fallbackBest (m : List Char) : String × Nat :=
  COMMIT_TYPES.foldl (fallbackStep m) ("chore", 0)

/-- Group contents of `\([^)]+\)` after the `(` and the first (non-`)`)
character have been seen. -/
def scopeTail : List Char → Option (List Char)
  | [] => none
  | c :: cs => if c = ')' then some [] else (scopeTail cs).map (fun g => c :: g)

/-- Group contents of `\([^)]+\)` right after the `(`. -/
def scopeGroup : List Char → Option (List Char)
  | [] => none
  | c :: cs => if c = ')' then none else (scopeTail cs).map (fun g => c :: g)

/-- `extract_scope`: `re.search(r'\(([^)]+)\)', message)` — leftmost match
of the generic parenthesized-group pattern, returning the group contents. -/
def extract_scope : List Char → Option (List Char)
  | [] => none
  | c :: cs =>
    if c = '(' then
      match scopeGroup cs with
      | some g => some g
      | none => extract_scope cs
    else extract_scope cs

/-- `re.sub(r'^[^:]+:\s*', '', message)`: if the message has at least one
non-colon character before a first colon, drop everything up to and
including that colon together with the whitespace run after it; otherwise
leave the message unchanged. -/
def stripHeader (l : List Char) : List Char :=
  match l.takeWhile (fun c => !(c = ':')), l.dropWhile (fun c => !(c = ':')) with
  | _ :: _, _ :: rest => rest.dropWhile isWs
  | _, _ => l

/-- The classification record produced per message (timestamp and echo of
the input are plumbing, handled by the callers). -/
structure CResult where
  type : String
  scope : Option String
  description : String
  confidence : Nat
deriving DecidableEq

/-- `classify_commit`: strip; error on empty; first conventional-format
match in table order wins with confidence 0.95; otherwise keyword
fallback. -/
def classify_commit (message : String) : Except String CResult :=
  let m := pyStripL message.data
  if m = [] then Except.error "Empty commit message"
  else
    match COMMIT_TYPES.find? (fun ti => matchesConv ti.1.data m) with
    | some ti =>
      Except.ok ⟨ti.1, (extract_scope m).map String.mk, String.mk (stripHeader m), 95⟩
    | none =>
      Except.ok ⟨(fallbackBest m).1, none, String.mk m, max (fallbackBest m).2 50⟩

def past_tense_indicators : List String :=
  ["added", "fixed", "updated", "changed", "removed", "created"]

/-- `description.split()[0].lower()`: the first whitespace-delimited word,
lowered (empty when the description is empty; the code guards the empty
case, and descriptions produced by `classify_commit` are never non-empty
all-whitespace). -/
def firstWord (desc : List Char) : List Char :=
  ((desc.dropWhile isWs).takeWhile (fun c => !(isWs c))).map Char.toLower

def impCheck (desc : List Char) : Bool :=
  past_tense_indicators.any (fun ind => isPrefixOfL ind.data (firstWord desc))

def capCheck : List Char → Bool
  | [] => false
  | c :: _ => c.isUpper

def convSugg (c : CResult) : String :=
  String.mk ("Consider using conventional format: ".data ++ c.type.data
    ++ ": ".data ++ c.description.data)

def shortSugg : String := "Commit message is too short. Add more details."

def longSugg : String := "Commit message is long. Consider keeping summary under 72 characters."

def impSugg : String :=
  "Use imperative mood (e.g., \x27add\x27 instead of \x27added\x27)"

def capSugg : String := "Start description with lowercase letter"

/-- `generate_suggestions`: the four style checks, in source order, on the
raw (unstripped) `message` and the classification's description. -/
def generate_suggestions (message : String) (c : CResult) : List String :=
  (if matchesConv c.type.data message.data then [] else [convSugg c]) ++
  (if message.length < 10 then [shortSugg] else []) ++
  (if message.length > 100 then [longSugg] else []) ++
  (if impCheck c.description.data then [impSugg] else []) ++
  (if capCheck c.description.data then [capSugg] else [])

/-- The `/classify` endpoint's computational core: classification plus
suggestions (echoed message and timestamp omitted). -/
def classify_message (msg : String) : Except String (CResult × List String) :=
  (classify_commit msg).map (fun c => (c, generate_suggestions msg c))

/-- One record of the `/classify/batch` response: either a full result or
a per-item error, each carrying the original message. -/
inductive BatchItem where
  | ok (message : String) (result : CResult) (suggestions : List String)
  | err (message : String) (error : String)
deriving DecidableEq

def batchItem (msg : String) : BatchItem :=
  match classify_commit msg with
  | Except.ok c => BatchItem.ok msg c (generate_suggestions msg c)
  | Except.error e => BatchItem.err msg e

def BatchItem.message : BatchItem → String
  | BatchItem.ok m _ _ => m
  | BatchItem.err m _ => m

/-- `classify_batch`: per-item processing with per-item error capture, and
`total = len(results)`. -/
def classify_batch (msgs : List String) : List BatchItem × Nat :=
  (msgs.map batchItem, (msgs.map batchItem).length)

/-- Spec-side reading (claim C1): the text after the first colon, with the
following whitespace stripped. -/
def textAfterFirstColon (l : List Char) : List Char :=
  ((l.dropWhile (fun c => !(c = ':'))).drop 1).dropWhile isWs

/-- Keyword count capped at 3 — the cap at which `min(0.6 + k*0.1, 0.9)`
stops growing. -/
def cappedKw (m : List Char) (ti : String × List String) : Nat :=
  min (countKw ti.2 (m.map Char.toLower)) 3

/-- Maximal capped keyword count over the table. -/
def maxCapped (m : List Char) : Nat :=
  (COMMIT_TYPES.map (cappedKw m)).foldr max 0

/-- Spec-side reading (claim C2, amended): the earliest category in table
order whose capped keyword count is maximal; `chore` when no keyword
matches at all. -/
def specBest (m : List Char) : String :=
  if maxCapped m = 0 then "chore"
  else ((COMMIT_TYPES.find? (fun ti => cappedKw m ti == maxCapped m)).map (fun ti => ti.1)).getD "chore"

/-- Spec-side fallback confidence: 0.5 when no keyword matches, otherwise
0.6 + 0.1·(capped maximal count). -/
def specConf (m : List Char) : Nat :=
  if maxCapped m = 0 then 50 else 60 + 10 * maxCapped m

/-- The keyword list of a named category, looked up in the table. -/
def kwOf (name : String) : List String :=
  ((COMMIT_TYPES.find? (fun ti => ti.1 == name)).map (fun ti => ti.2)).getD []

/-- Sanity condition on a type literal: non-empty, fixed by lowercasing,
and containing neither `(` nor `:` (true of all table identifiers, checked
by evaluation). -/
def nameOK (t : List Char) : Bool :=
  (!t.isEmpty) && t.all (fun c => Char.toLower c = c && !(c = '(') && !(c = ':'))

/-- The lowered characters of a message before the first `(` or `:`; a
conventional-format match forces this to equal the matching type literal,
which makes the matching category unique. -/
def headTok (m : List Char) : List Char :=
  (m.takeWhile (fun c => !(c = '(') && !(c = ':'))).map Char.toLower

/-- The fallback confidence as a function of the capped keyword count. -/
def hFun (c : Nat) : Nat := if c = 0 then 0 else 60 + 10 * c

/-- The effective score a category contributes in the fallback loop when
no conventional pattern matched: 0 when it is skipped (no keyword hit),
its keyword confidence otherwise. -/
def kwScore (m : List Char) (ti : String × List String) : Nat :=
  if countKw ti.2 (m.map Char.toLower) > 0
  then min (60 + countKw ti.2 (m.map Char.toLower) * 10) 90 else 0

/-- Maximal fallback score over a list of categories. -/
def maxScoreL (m : List Char) (l : List (String × List String)) : Nat :=
  (l.map (kwScore m)).foldr max 0

/-- The fallback loop body rewritten through `kwScore` (equal to
`fallbackStep` whenever the category's pattern does not match). -/
def stepK (m : List Char) (b : String × Nat) (a : String × List String) : String × Nat :=
  if kwScore m a > b.2 then (a.1, kwScore m a) else b

theorem takeWhile_all_append (p : Char → Bool) (pre : List Char) (h : Char) (tl : List Char)
    (hpre : ∀ c ∈ pre, p c = true) (hh : p h = false) :
    (pre ++ h :: tl).takeWhile p = pre := by
  induction pre with
  | nil => simp [List.takeWhile_cons, hh]
  | cons a l ih =>
    have ha : p a = true := hpre a (by simp)
    simp only [List.cons_append, List.takeWhile_cons, ha, if_true]
    rw [ih (fun c hc => hpre c (by simp [hc]))]

theorem dropWhile_all_append (p : Char → Bool) (pre : List Char) (h : Char) (tl : List Char)
    (hpre : ∀ c ∈ pre, p c = true) (hh : p h = false) :
    (pre ++ h :: tl).dropWhile p = h :: tl := by
  induction pre with
  | nil => simp [List.dropWhile_cons, hh]
  | cons a l ih =>
    have ha : p a = true := hpre a (by simp)
    simp only [List.cons_append, List.dropWhile_cons, ha, if_true]
    exact ih (fun c hc => hpre c (by simp [hc]))

theorem dropWhile_head_false (p : Char → Bool) :
    ∀ (l : List Char) (c : Char) (r : List Char), l.dropWhile p = c :: r → p c = false := by
  intro l
  induction l with
  | nil => intro c r h; simp [List.dropWhile] at h
  | cons a l ih =>
    intro c r h
    by_cases ha : p a
    · rw [List.dropWhile_cons_of_pos ha] at h
      exact ih c r h
    · rw [List.dropWhile_cons_of_neg ha] at h
      cases h
      simpa using ha

theorem dropWhile_ne_nil_of_mem (p : Char → Bool) (l : List Char) (x : Char)
    (hx : x ∈ l) (hpx : p x = false) : l.dropWhile p ≠ [] := by
  intro h
  have := (List.dropWhile_eq_nil_iff).mp h x hx
  rw [hpx] at this
  exact Bool.false_ne_true this

theorem mem_of_getLastEq : ∀ (l : List Char) (c : Char), l.getLast? = some c → c ∈ l := by
  intro l
  induction l with
  | nil => intro c h; simp [List.getLast?] at h
  | cons a l ih =>
    intro c h
    cases l with
    | nil => simp [List.getLast?] at h; simp [h]
    | cons b l' =>
      rw [List.getLast?_cons_cons] at h
      exact List.mem_cons_of_mem a (ih c h)

theorem first_split (x : Char) : ∀ (l : List Char), x ∈ l →
    ∃ l1 l2, l = l1 ++ x :: l2 ∧ x ∉ l1 := by
  intro l
  induction l with
  | nil => intro h; simp at h
  | cons a l ih =>
    intro h
    by_cases hax : a = x
    · exact ⟨[], l, by simp [hax], by simp⟩
    · have hx : x ∈ l := by
        rcases List.mem_cons.mp h with h' | h'
        · exact absurd h'.symm hax
        · exact h'
      obtain ⟨l1, l2, hl, hnot⟩ := ih hx
      refine ⟨a :: l1, l2, by simp [hl], ?_⟩
      intro hmem
      rcases List.mem_cons.mp hmem with h' | h'
      · exact hax h'.symm
      · exact hnot h'

theorem pyStripL_head (l : List Char) (c : Char) (r : List Char)
    (h : pyStripL l = c :: r) : isWs c = false := by
  unfold pyStripL at h
  set A := l.dropWhile isWs with hA
  set B := A.reverse.dropWhile isWs with hB
  have hBne : B ≠ [] := by
    intro hnil
    rw [hnil] at h
    simp at h
  have h1 : B.reverse.head? = some c := by rw [h]; rfl
  rw [List.head?_reverse] at h1
  have h2 : A.reverse.getLast? = B.getLast? := by
    conv_lhs => rw [← List.takeWhile_append_dropWhile isWs A.reverse]
    exact List.getLast?_append_of_ne_nil _ hBne
  rw [List.getLast?_reverse] at h2
  have h3 : A.head? = some c := h2.trans h1
  cases hAc : A with
  | nil => rw [hAc] at h3; simp at h3
  | cons a as =>
    rw [hAc] at h3
    simp at h3
    rw [← h3]
    exact dropWhile_head_false isWs l a as (by rw [← hA, hAc])

theorem dropPrefixCI_structure : ∀ (t m rest : List Char), dropPrefixCI t m = some rest →
    ∃ pre, m = pre ++ rest ∧ pre.map Char.toLower = t := by
  intro t
  induction t with
  | nil =>
    intro m rest h
    simp [dropPrefixCI] at h
    exact ⟨[], by simp [h], rfl⟩
  | cons c cs ih =>
    intro m rest h
    cases m with
    | nil => simp [dropPrefixCI] at h
    | cons d ds =>
      unfold dropPrefixCI at h
      by_cases hc : Char.toLower d = c
      · rw [if_pos hc] at h
        obtain ⟨pre, hds, hmap⟩ := ih ds rest h
        exact ⟨d :: pre, by simp [hds], by simp [hmap, hc]⟩
      · rw [if_neg hc] at h
        exact absurd h (by simp)

theorem scopeRest_structure : ∀ (r s : List Char), scopeRest r = some s →
    ∃ mid, r = mid ++ ')' :: s ∧ ')' ∉ mid := by
  intro r
  induction r with
  | nil => intro s h; simp [scopeRest] at h
  | cons c cs ih =>
    intro s h
    unfold scopeRest at h
    by_cases hc : c = ')'
    · rw [if_pos hc] at h
      simp at h
      exact ⟨[], by simp [hc, h], by simp⟩
    · rw [if_neg hc] at h
      obtain ⟨mid, hcs, hnot⟩ := ih s h
      refine ⟨c :: mid, by simp [hcs], ?_⟩
      intro hm
      rcases List.mem_cons.mp hm with h' | h'
      · exact hc h'.symm
      · exact hnot h'

theorem scopeAfter_structure (r s : List Char) (h : scopeAfter r = some s) :
    ∃ a mid, r = a :: (mid ++ ')' :: s) ∧ ¬(a = ')') ∧ ')' ∉ mid := by
  cases r with
  | nil => simp [scopeAfter] at h
  | cons c cs =>
    simp only [scopeAfter] at h
    by_cases hc : c = ')'
    · rw [if_pos hc] at h; exact absurd h (by simp)
    · rw [if_neg hc] at h
      obtain ⟨mid, hcs, hnot⟩ := scopeRest_structure cs s h
      exact ⟨c, mid, by simp [hcs], hc, hnot⟩

theorem tailMatch_ne_nil (tl : List Char) (h : tailMatch tl = true) : tl ≠ [] := by
  intro hnil
  rw [hnil] at h
  simp [tailMatch] at h

theorem afterType_structure (r : List Char) (h : afterType r = true) :
    (∃ tl, r = ':' :: tl ∧ tailMatch tl = true) ∨
    (∃ s tl, r = '(' :: (s ++ ')' :: ':' :: tl) ∧ s ≠ [] ∧ ')' ∉ s ∧ tailMatch tl = true) := by
  cases r with
  | nil => simp [afterType] at h
  | cons c cs =>
    simp only [afterType] at h
    by_cases hc : c = '('
    · rw [if_pos hc] at h
      right
      cases hsa : scopeAfter cs with
      | none => rw [hsa] at h; simp at h
      | some s' =>
        rw [hsa] at h
        have h2 : colonTail s' = true := h
        cases s' with
        | nil => simp [colonTail] at h2
        | cons c' tl =>
          simp only [colonTail] at h2
          by_cases hc' : c' = ':'
          · rw [if_pos hc'] at h2
            subst hc'
            obtain ⟨a, mid, hcs, ha, hmid⟩ := scopeAfter_structure cs (':' :: tl) hsa
            refine ⟨a :: mid, tl, by simp [hc, hcs], by simp, ?_, h2⟩
            intro hm
            rcases List.mem_cons.mp hm with h' | h'
            · exact ha h'.symm
            · exact hmid h'
          · rw [if_neg hc'] at h2
            exact absurd h2 (by simp)
    · rw [if_neg hc] at h
      by_cases hc2 : c = ':'
      · rw [if_pos hc2] at h
        exact Or.inl ⟨cs, by simp [hc2], h⟩
      · rw [if_neg hc2] at h
        exact absurd h (by simp)

theorem matchesConv_decomp (t m : List Char) (h : matchesConv t m = true) :
    ∃ pre rest, m = pre ++ rest ∧ pre.map Char.toLower = t ∧ afterType rest = true := by
  unfold matchesConv at h
  cases hd : dropPrefixCI t m with
  | none => rw [hd] at h; simp at h
  | some rest =>
    rw [hd] at h
    obtain ⟨pre, hm, hmap⟩ := dropPrefixCI_structure t m rest hd
    exact ⟨pre, rest, hm, hmap, h⟩

theorem nameOK_elim (t : List Char) (ht : nameOK t = true) :
    t ≠ [] ∧ ∀ c ∈ t, Char.toLower c = c ∧ ¬(c = '(') ∧ ¬(c = ':') := by
  unfold nameOK at ht
  rw [Bool.and_eq_true] at ht
  constructor
  · intro hnil
    rw [hnil] at ht
    simp [List.isEmpty] at ht
  · intro c hc
    have := (List.all_eq_true.mp ht.2) c hc
    simp only [Bool.and_eq_true, decide_eq_true_eq, Bool.not_eq_true'] at this
    exact ⟨this.1.1, by simpa using this.1.2, by simpa using this.2⟩

theorem pre_chars_ok (t pre : List Char) (ht : nameOK t = true)
    (hmap : pre.map Char.toLower = t) :
    ∀ c ∈ pre, ¬(c = '(') ∧ ¬(c = ':') := by
  intro c hc
  have hmem : Char.toLower c ∈ t := by
    rw [← hmap]
    exact List.mem_map_of_mem Char.toLower hc
  obtain ⟨-, hall⟩ := nameOK_elim t ht
  obtain ⟨-, hp, hcol⟩ := hall _ hmem
  constructor
  · intro he
    rw [he] at hp
    exact hp (by decide)
  · intro he
    rw [he] at hcol
    exact hcol (by decide)

theorem afterType_head (r : List Char) (h : afterType r = true) :
    ∃ c r', r = c :: r' ∧ (c = '(' ∨ c = ':') := by
  rcases afterType_structure r h with ⟨tl, hr, -⟩ | ⟨s, tl, hr, -, -, -⟩
  · exact ⟨':', tl, hr, Or.inr rfl⟩
  · exact ⟨'(', s ++ ')' :: ':' :: tl, hr, Or.inl rfl⟩

theorem matchesConv_headTok (t m : List Char) (ht : nameOK t = true)
    (h : matchesConv t m = true) : headTok m = t := by
  obtain ⟨pre, rest, hm, hmap, haft⟩ := matchesConv_decomp t m h
  obtain ⟨c0, r', hr, hc0⟩ := afterType_head rest haft
  have hpre : ∀ c ∈ pre, (!(c = '(') && !(c = ':')) = true := by
    intro c hc
    obtain ⟨h1, h2⟩ := pre_chars_ok t pre ht hmap c hc
    simp [h1, h2]
  have hc0f : (!(c0 = '(') && !(c0 = ':')) = false := by
    rcases hc0 with h' | h' <;> simp [h']
  unfold headTok
  rw [hm, hr, takeWhile_all_append _ pre c0 r' hpre hc0f, hmap]

theorem matchesConv_ne_nil (t m : List Char) (ht : t ≠ []) (h : matchesConv t m = true) :
    m ≠ [] := by
  intro hnil
  subst hnil
  cases t with
  | nil => exact ht rfl
  | cons c cs => simp [matchesConv, dropPrefixCI] at h

theorem find?_eq_some_of_unique {α : Type} (l : List α) (p : α → Bool) (a : α)
    (hmem : a ∈ l) (hpa : p a = true) (huniq : ∀ b ∈ l, p b = true → b = a) :
    l.find? p = some a := by
  induction l with
  | nil => simp at hmem
  | cons hd tl ih =>
    by_cases hp : p hd = true
    · rw [List.find?_cons_of_pos _ hp]
      rw [huniq hd (by simp) hp]
    · rw [List.find?_cons_of_neg _ hp]
      have hatl : a ∈ tl := by
        rcases List.mem_cons.mp hmem with h' | h'
        · rw [← h'] at hp; exact absurd hpa hp
        · exact h'
      exact ih hatl (fun b hb hpb => huniq b (List.mem_cons_of_mem hd hb) hpb)

theorem table_namesOK : ∀ ti ∈ COMMIT_TYPES, nameOK ti.1.data = true := by decide

theorem table_inj : ∀ a ∈ COMMIT_TYPES, ∀ b ∈ COMMIT_TYPES, a.1 = b.1 → a = b := by decide

theorem conv_find (m : List Char) (t : String) (kws : List String)
    (hmem : (t, kws) ∈ COMMIT_TYPES) (hm : matchesConv t.data m = true) :
    COMMIT_TYPES.find? (fun ti => matchesConv ti.1.data m) = some (t, kws) := by
  apply find?_eq_some_of_unique _ _ _ hmem hm
  intro b hb hpb
  have h1 : headTok m = b.1.data := matchesConv_headTok _ _ (table_namesOK b hb) hpb
  have h2 : headTok m = t.data := matchesConv_headTok _ _ (table_namesOK (t, kws) hmem) hm
  have hbt : b.1 = t := by
    cases hb1 : b.1 with
    | mk db =>
      cases t with
      | mk dt =>
        rw [hb1] at h1
        have : db = dt := by
          have := h1.symm.trans h2
          simpa using this
        rw [this]
  exact table_inj b hb (t, kws) hmem hbt

theorem stripHeader_eq_of_split (A B : List Char) (hA : A ≠ []) (hAc : ':' ∉ A) :
    stripHeader (A ++ ':' :: B) = B.dropWhile isWs := by
  have hApred : ∀ c ∈ A, (!(c = ':')) = true := by
    intro c hc
    have hne : ¬(c = ':') := fun he => hAc (he ▸ hc)
    simp [hne]
  have hcolon : (!(':' = ':')) = false := by decide
  unfold stripHeader
  rw [takeWhile_all_append _ A ':' B hApred hcolon,
      dropWhile_all_append _ A ':' B hApred hcolon]
  cases A with
  | nil => exact absurd rfl hA
  | cons a A' => rfl

theorem textAfter_eq_of_split (A B : List Char) (hAc : ':' ∉ A) :
    textAfterFirstColon (A ++ ':' :: B) = B.dropWhile isWs := by
  have hApred : ∀ c ∈ A, (!(c = ':')) = true := by
    intro c hc
    have hne : ¬(c = ':') := fun he => hAc (he ▸ hc)
    simp [hne]
  have hcolon : (!(':' = ':')) = false := by decide
  unfold textAfterFirstColon
  rw [dropWhile_all_append _ A ':' B hApred hcolon]
  rfl

theorem matchesConv_colon_split (t m : List Char) (ht : nameOK t = true)
    (hm : matchesConv t m = true) :
    ∃ A B, m = A ++ ':' :: B ∧ A ≠ [] ∧ ':' ∉ A ∧ B ≠ [] := by
  obtain ⟨pre, rest, hmm, hmap, haft⟩ := matchesConv_decomp t m hm
  have hpre_ne : pre ≠ [] := by
    intro hnil
    rw [hnil] at hmap
    exact (nameOK_elim t ht).1 hmap.symm
  have hpre_nc : ':' ∉ pre := by
    intro hc
    exact (pre_chars_ok t pre ht hmap ':' hc).2 rfl
  rcases afterType_structure rest haft with ⟨tl, hr, htail⟩ | ⟨s, tl, hr, hs_ne, hs_np, htail⟩
  · exact ⟨pre, tl, by rw [hmm, hr], hpre_ne, hpre_nc, tailMatch_ne_nil tl htail⟩
  · by_cases hcs : ':' ∈ s
    · obtain ⟨s1, s2, hs, hs1⟩ := first_split ':' s hcs
      refine ⟨pre ++ '(' :: s1, s2 ++ ')' :: ':' :: tl, ?_, by simp, ?_, by simp⟩
      · rw [hmm, hr, hs]
        simp
      · intro hc
        rcases List.mem_append.mp hc with h' | h'
        · exact hpre_nc h'
        · rcases List.mem_cons.mp h' with h'' | h''
          · exact absurd h''.symm (by decide)
          · exact hs1 h''
    · refine ⟨pre ++ '(' :: (s ++ [')']), tl, ?_, by simp, ?_, tailMatch_ne_nil tl htail⟩
      · rw [hmm, hr]
        simp
      · intro hc
        rcases List.mem_append.mp hc with h' | h'
        · exact hpre_nc h'
        · rcases List.mem_cons.mp h' with h'' | h''
          · exact absurd h''.symm (by decide)
          · rcases List.mem_append.mp h'' with h3 | h3
            · exact hcs h3
            · rcases List.mem_singleton.mp h3 with h4
              exact absurd h4 (by decide)

theorem stripHeader_eq_textAfter (t m : List Char) (ht : nameOK t = true)
    (hm : matchesConv t m = true) :
    stripHeader m = textAfterFirstColon m := by
  obtain ⟨A, B, hmAB, hA, hAc, -⟩ := matchesConv_colon_split t m ht hm
  rw [hmAB, stripHeader_eq_of_split A B hA hAc, textAfter_eq_of_split A B hAc]

theorem stripHeader_good (t m : List Char) (ht : nameOK t = true)
    (hm : matchesConv t m = true)
    (hlast : ∀ c, m.getLast? = some c → isWs c = false) :
    stripHeader m ≠ [] ∧
    (∀ c r, stripHeader m = c :: r → isWs c = false) ∧
    (∀ c, (stripHeader m).getLast? = some c → isWs c = false) := by
  obtain ⟨A, B, hmAB, hA, hAc, hB⟩ := matchesConv_colon_split t m ht hm
  have hstrip : stripHeader m = B.dropWhile isWs := by
    rw [hmAB]
    exact stripHeader_eq_of_split A B hA hAc
  have hBlast : m.getLast? = B.getLast? := by
    rw [hmAB, List.getLast?_append_of_ne_nil A (by simp)]
    cases B with
    | nil => exact absurd rfl hB
    | cons b B' => rw [List.getLast?_cons_cons]
  obtain ⟨cB, hcB⟩ : ∃ cB, B.getLast? = some cB := by
    cases hBl : B.getLast? with
    | none => exact absurd (List.getLast?_eq_none_iff.mp hBl) hB
    | some c => exact ⟨c, rfl⟩
  have hcBws : isWs cB = false := hlast cB (hBlast.trans hcB)
  have hcBmem : cB ∈ B := mem_of_getLastEq B cB hcB
  have hne : B.dropWhile isWs ≠ [] := dropWhile_ne_nil_of_mem isWs B cB hcBmem hcBws
  refine ⟨by rw [hstrip]; exact hne, ?_, ?_⟩
  · intro c r h
    rw [hstrip] at h
    exact dropWhile_head_false isWs B c r h
  · intro c hgl
    rw [hstrip] at hgl
    have hsplitB : B.takeWhile isWs ++ B.dropWhile isWs = B :=
      List.takeWhile_append_dropWhile isWs B
    have : B.getLast? = (B.dropWhile isWs).getLast? := by
      conv_lhs => rw [← hsplitB]
      exact List.getLast?_append_of_ne_nil _ hne
    rw [← this, hcB] at hgl
    cases hgl
    exact hcBws

theorem pyStripL_last (l : List Char) (c : Char)
    (h : (pyStripL l).getLast? = some c) : isWs c = false := by
  unfold pyStripL at h
  rw [List.getLast?_reverse] at h
  cases hB : (l.dropWhile isWs).reverse.dropWhile isWs with
  | nil => rw [hB] at h; simp at h
  | cons b bs =>
    rw [hB] at h
    simp at h
    rw [← h]
    exact dropWhile_head_false isWs _ b bs hB

theorem foldl_congr_mem {α β : Type} (l : List α) (f g : β → α → β) (b : β)
    (h : ∀ b' a, a ∈ l → f b' a = g b' a) : l.foldl f b = l.foldl g b := by
  induction l generalizing b with
  | nil => rfl
  | cons a l ih =>
    simp only [List.foldl_cons]
    rw [h b a (by simp)]
    exact ih _ (fun b' a' ha' => h b' a' (by simp [ha']))

theorem find?_congr_mem {α : Type} (l : List α) (p q : α → Bool)
    (h : ∀ x ∈ l, p x = q x) : l.find? p = l.find? q := by
  induction l with
  | nil => rfl
  | cons a l ih =>
    have ha := h a (by simp)
    by_cases hp : p a = true
    · rw [List.find?_cons_of_pos _ hp, List.find?_cons_of_pos _ (ha ▸ hp)]
    · rw [List.find?_cons_of_neg _ hp, List.find?_cons_of_neg _ (ha ▸ hp)]
      exact ih (fun x hx => h x (by simp [hx]))

theorem fallbackStep_eq_stepK (m : List Char) (b : String × Nat) (a : String × List String)
    (hnm : matchesConv a.1.data m = false) :
    fallbackStep m b a = stepK m b a := by
  unfold fallbackStep stepK kwScore
  have hconf : calculate_confidence m a.1.data a.2 =
      (if countKw a.2 (m.map Char.toLower) > 0
       then min (60 + countKw a.2 (m.map Char.toLower) * 10) 90 else 50) := by
    unfold calculate_confidence
    rw [if_neg (by simp [hnm])]
  rw [hconf]
  by_cases hk : countKw a.2 (m.map Char.toLower) > 0
  · simp only [if_pos hk]
  · simp only [if_neg hk]
    have : ¬ ((0 : Nat) > b.2) := by omega
    rw [if_neg this]

theorem maxScoreL_cons (m : List Char) (a : String × List String)
    (l : List (String × List String)) :
    maxScoreL m (a :: l) = max (kwScore m a) (maxScoreL m l) := by
  simp [maxScoreL]

theorem stepK_snd (m : List Char) (b : String × Nat) (a : String × List String) :
    (stepK m b a).2 = max b.2 (kwScore m a) := by
  unfold stepK
  by_cases h : kwScore m a > b.2
  · rw [if_pos h]; omega
  · rw [if_neg h]; omega

theorem foldl_stepK_snd (m : List Char) :
    ∀ (l : List (String × List String)) (b : String × Nat),
      (l.foldl (stepK m) b).2 = max b.2 (maxScoreL m l) := by
  intro l
  induction l with
  | nil => intro b; simp [maxScoreL]
  | cons a l ih =>
    intro b
    simp only [List.foldl_cons]
    rw [ih (stepK m b a), stepK_snd, maxScoreL_cons]
    omega

theorem foldl_stepK_stay (m : List Char) :
    ∀ (l : List (String × List String)) (b : String × Nat),
      maxScoreL m l ≤ b.2 → l.foldl (stepK m) b = b := by
  intro l
  induction l with
  | nil => intro b _; rfl
  | cons a l ih =>
    intro b hle
    rw [maxScoreL_cons] at hle
    simp only [List.foldl_cons]
    have hstep : stepK m b a = b := by
      unfold stepK
      rw [if_neg (by omega)]
    rw [hstep]
    exact ih b (by omega)

theorem foldl_stepK_max (m : List Char) :
    ∀ (l : List (String × List String)) (b : String × Nat) (M : Nat),
      M = maxScoreL m l → b.2 < M →
      ∃ a, l.find? (fun x => kwScore m x == M) = some a ∧
           l.foldl (stepK m) b = (a.1, M) := by
  intro l
  induction l with
  | nil =>
    intro b M hM hlt
    rw [hM] at hlt
    simp [maxScoreL] at hlt
  | cons a l ih =>
    intro b M hM hlt
    rw [maxScoreL_cons] at hM
    by_cases he : kwScore m a = M
    · refine ⟨a, ?_, ?_⟩
      · rw [List.find?_cons_of_pos _ (by simp [he])]
      · simp only [List.foldl_cons]
        have hupd : stepK m b a = (a.1, kwScore m a) := by
          unfold stepK
          rw [if_pos (by omega)]
        rw [hupd]
        have hstay : l.foldl (stepK m) (a.1, kwScore m a) = (a.1, kwScore m a) := by
          apply foldl_stepK_stay
          simp only [he]
          omega
        rw [hstay, he]
    · have hlt' : kwScore m a < M := by omega
      have hMl : M = maxScoreL m l := by omega
      have hb' : (stepK m b a).2 < M := by
        rw [stepK_snd]
        omega
      obtain ⟨a', hfind, hfold⟩ := ih (stepK m b a) M hMl hb'
      refine ⟨a', ?_, ?_⟩
      · rw [List.find?_cons_of_neg _ (by simp [he])]
        exact hfind
      · simp only [List.foldl_cons]
        exact hfold

theorem hFun_mono (a b : Nat) (h : a ≤ b) : hFun a ≤ hFun b := by
  unfold hFun
  by_cases ha : a = 0
  · by_cases hb : b = 0
    · rw [if_pos ha, if_pos hb]
    · rw [if_pos ha, if_neg hb]
      omega
  · have hb : ¬ b = 0 := by omega
    rw [if_neg ha, if_neg hb]
    omega

theorem hFun_max (a b : Nat) : hFun (max a b) = max (hFun a) (hFun b) := by
  rcases Nat.le_total a b with h | h
  · rw [Nat.max_eq_right h, Nat.max_eq_right (hFun_mono a b h)]
  · rw [Nat.max_eq_left h, Nat.max_eq_left (hFun_mono b a h)]

theorem hFun_inj (a b : Nat) (h : hFun a = hFun b) : a = b := by
  unfold hFun at h
  by_cases ha : a = 0 <;> by_cases hb : b = 0 <;> simp [ha, hb] at h <;> omega

theorem kwScore_eq_hFun (m : List Char) (a : String × List String) :
    kwScore m a = hFun (cappedKw m a) := by
  unfold kwScore cappedKw hFun
  by_cases hk : countKw a.2 (m.map Char.toLower) > 0
  · rw [if_pos hk]
    rcases Nat.le_total (countKw a.2 (m.map Char.toLower)) 3 with h3 | h3
    · rw [Nat.min_eq_left h3, Nat.min_eq_left (by omega), if_neg (by omega)]
      omega
    · rw [Nat.min_eq_right h3, Nat.min_eq_right (by omega), if_neg (by omega)]
  · rw [if_neg hk]
    have : countKw a.2 (m.map Char.toLower) = 0 := by omega
    rw [this]
    simp

theorem maxScoreL_eq_hFun (m : List Char) :
    ∀ (l : List (String × List String)),
      maxScoreL m l = hFun ((l.map (cappedKw m)).foldr max 0) := by
  intro l
  induction l with
  | nil => simp [maxScoreL, hFun]
  | cons a l ih =>
    rw [maxScoreL_cons, ih]
    simp only [List.map_cons, List.foldr_cons]
    rw [hFun_max, kwScore_eq_hFun]

theorem calc_conf_le_95 (m : List Char) (name : List Char) (kws : List String) :
    calculate_confidence m name kws ≤ 95 := by
  unfold calculate_confidence
  by_cases h1 : matchesConv name m
  · rw [if_pos h1]
  · rw [if_neg h1]
    by_cases h2 : countKw kws (m.map Char.toLower) > 0
    · rw [if_pos h2]
      have := Nat.min_le_right (60 + countKw kws (m.map Char.toLower) * 10) 90
      omega
    · rw [if_neg h2]; omega

theorem fallback_snd_le (m : List Char) :
    ∀ (l : List (String × List String)) (b : String × Nat),
      (l.foldl (fallbackStep m) b).2 ≤ max b.2 95 := by
  intro l
  induction l with
  | nil => intro b; simp
  | cons a l ih =>
    intro b
    simp only [List.foldl_cons]
    have hstep : (fallbackStep m b a).2 ≤ max b.2 95 := by
      unfold fallbackStep
      by_cases hk : countKw a.2 (m.map Char.toLower) > 0
      · rw [if_pos hk]
        by_cases hc : calculate_confidence m a.1.data a.2 > b.2
        · rw [if_pos hc]
          have := calc_conf_le_95 m a.1.data a.2
          simp only []
          omega
        · rw [if_neg hc]; omega
      · rw [if_neg hk]; omega
    have := ih (fallbackStep m b a)
    omega

theorem fallback_fst_cases (m : List Char) :
    ∀ (l : List (String × List String)) (b : String × Nat),
      (l.foldl (fallbackStep m) b).1 = b.1 ∨ ∃ a ∈ l, (l.foldl (fallbackStep m) b).1 = a.1 := by
  intro l
  induction l with
  | nil => intro b; exact Or.inl rfl
  | cons a l ih =>
    intro b
    simp only [List.foldl_cons]
    rcases ih (fallbackStep m b a) with h | ⟨a', ha', h⟩
    · have hcases : (fallbackStep m b a).1 = b.1 ∨ (fallbackStep m b a).1 = a.1 := by
        unfold fallbackStep
        by_cases hk : countKw a.2 (m.map Char.toLower) > 0
        · rw [if_pos hk]
          by_cases hc : calculate_confidence m a.1.data a.2 > b.2
          · rw [if_pos hc]
            exact Or.inr rfl
          · rw [if_neg hc]
            exact Or.inl rfl
        · rw [if_neg hk]
          exact Or.inl rfl
      rcases hcases with h2 | h2
      · exact Or.inl (h.trans h2)
      · exact Or.inr ⟨a, by simp, h.trans h2⟩
    · exact Or.inr ⟨a', by simp [ha'], h⟩

theorem classify_commit_eq (msg : String) :
    classify_commit msg =
      (if pyStripL msg.data = [] then Except.error "Empty commit message"
       else
         match COMMIT_TYPES.find? (fun ti => matchesConv ti.1.data (pyStripL msg.data)) with
         | some ti =>
           Except.ok ⟨ti.1, (extract_scope (pyStripL msg.data)).map String.mk,
             String.mk (stripHeader (pyStripL msg.data)), 95⟩
         | none =>
           Except.ok ⟨(fallbackBest (pyStripL msg.data)).1, none,
             String.mk (pyStripL msg.data), max (fallbackBest (pyStripL msg.data)).2 50⟩) :=
  rfl

theorem hFun_beq (a b : Nat) : (hFun a == hFun b) = (a == b) := by
  by_cases h : a = b
  · simp [h]
  · have hne : ¬ hFun a = hFun b := fun hh => h (hFun_inj a b hh)
    simp [h, hne]

/-- Claim C1 (amended): the conventional-format guarantee holds for the
message as the code actually matches it — after trimming.  If the trimmed
message matches the pattern of a table category, `classify_commit` returns
that category with confidence exactly 0.95 and a description equal to the
text after the first colon with the following whitespace stripped. -/
theorem c1_conv_format (msg : String) (t : String) (kws : List String)
    (hmem : (t, kws) ∈ COMMIT_TYPES)
    (hmatch : matchesConv t.data (pyStripL msg.data) = true) :
    ∃ r, classify_commit msg = Except.ok r ∧ r.type = t ∧ r.confidence = 95 ∧
      r.description = String.mk (textAfterFirstColon (pyStripL msg.data)) := by
  have hnOK := table_namesOK (t, kws) hmem
  have htne : t.data ≠ [] := (nameOK_elim t.data hnOK).1
  have hmne : pyStripL msg.data ≠ [] := matchesConv_ne_nil t.data _ htne hmatch
  have hfind := conv_find (pyStripL msg.data) t kws hmem hmatch
  refine ⟨⟨t, (extract_scope (pyStripL msg.data)).map String.mk,
      String.mk (textAfterFirstColon (pyStripL msg.data)), 95⟩, ?_, rfl, rfl, rfl⟩
  rw [classify_commit_eq, if_neg hmne]
  simp only [hfind]
  rw [stripHeader_eq_textAfter t.data _ hnOK hmatch]

/-- Claim C1, counterexample to the original statement: the raw input
`"feat:   "` is non-empty after trimming and matches the `feat` pattern
(the `.` of `.+` can consume a blank), yet `classify_commit` returns
`chore` with confidence 0.5 — the code matches the trimmed message
`"feat:"`, which no pattern matches. -/
theorem c1_counterexample :
    matchesConv "feat".data "feat:   ".data = true ∧
    pyStripL "feat:   ".data ≠ [] ∧
    classify_commit "feat:   " = Except.ok ⟨"chore", none, "feat:", 50⟩ :=
  ⟨by decide, by decide, rfl⟩

/-- Witness for C1 at `"feat(auth): add login"`. -/
theorem c1_conv_format_witness :
    (("feat", ["add", "new", "implement", "create", "introduce"]) ∈ COMMIT_TYPES ∧
      matchesConv "feat".data (pyStripL "feat(auth): add login".data) = true) ∧
    (∃ r, classify_commit "feat(auth): add login" = Except.ok r ∧ r.type = "feat" ∧
      r.confidence = 95 ∧
      r.description = String.mk (textAfterFirstColon (pyStripL "feat(auth): add login".data))) :=
  ⟨⟨by decide, by decide⟩,
    c1_conv_format "feat(auth): add login" "feat"
      ["add", "new", "implement", "create", "introduce"] (by decide) (by decide)⟩

/-- Claim C2 (amended): in the keyword fallback the winner is the earliest
category in table order whose keyword count *capped at 3* is maximal (the
confidence `min(0.6 + k*0.1, 0.9)` stops growing at 3 hits, so a later
category with more raw hits cannot displace an earlier one once both reach
the cap); with no keyword hits at all the result is `chore` with
confidence 0.5, and in either case scope is none and the description is
the full trimmed message. -/
theorem c2_fallback_winner (msg : String)
    (h1 : pyStripL msg.data ≠ [])
    (h2 : COMMIT_TYPES.find? (fun ti => matchesConv ti.1.data (pyStripL msg.data)) = none) :
    classify_commit msg = Except.ok
      ⟨specBest (pyStripL msg.data), none, String.mk (pyStripL msg.data),
        specConf (pyStripL msg.data)⟩ := by
  have hnm : ∀ ti ∈ COMMIT_TYPES, matchesConv ti.1.data (pyStripL msg.data) = false := by
    intro ti hti
    have hne := List.find?_eq_none.mp h2 ti hti
    exact Bool.not_eq_true _ ▸ Bool.eq_false_iff.mpr (fun hh => hne (by rw [hh]))
  have hfb : fallbackBest (pyStripL msg.data) =
      COMMIT_TYPES.foldl (stepK (pyStripL msg.data)) ("chore", 0) := by
    unfold fallbackBest
    exact foldl_congr_mem _ _ _ _
      (fun b a ha => fallbackStep_eq_stepK (pyStripL msg.data) b a (hnm a ha))
  have hM : maxScoreL (pyStripL msg.data) COMMIT_TYPES = hFun (maxCapped (pyStripL msg.data)) :=
    maxScoreL_eq_hFun (pyStripL msg.data) COMMIT_TYPES
  rw [classify_commit_eq, if_neg h1]
  simp only [h2, hfb]
  by_cases hmx : maxCapped (pyStripL msg.data) = 0
  · have hM0 : maxScoreL (pyStripL msg.data) COMMIT_TYPES = 0 := by
      rw [hM, hmx]
      rfl
    rw [foldl_stepK_stay (pyStripL msg.data) COMMIT_TYPES ("chore", 0) (by rw [hM0])]
    unfold specBest specConf
    rw [if_pos hmx, if_pos hmx]
    rfl
  · have hMpos : (("chore", 0) : String × Nat).2 < maxScoreL (pyStripL msg.data) COMMIT_TYPES := by
      rw [hM]
      unfold hFun
      rw [if_neg hmx]
      omega
    obtain ⟨a, hfind, hfold⟩ :=
      foldl_stepK_max (pyStripL msg.data) COMMIT_TYPES ("chore", 0)
        (maxScoreL (pyStripL msg.data) COMMIT_TYPES) rfl hMpos
    rw [hfold]
    have hfind2 : COMMIT_TYPES.find?
        (fun ti => cappedKw (pyStripL msg.data) ti == maxCapped (pyStripL msg.data)) = some a := by
      rw [← hfind]
      apply find?_congr_mem
      intro x hx
      rw [kwScore_eq_hFun, hM, hFun_beq]
    have hmax : max (maxScoreL (pyStripL msg.data) COMMIT_TYPES) 50 =
        60 + 10 * maxCapped (pyStripL msg.data) := by
      rw [hM]
      unfold hFun
      rw [if_neg hmx]
      have h3 : 1 ≤ maxCapped (pyStripL msg.data) := by omega
      rw [Nat.max_eq_left (by omega)]
    unfold specBest specConf
    rw [if_neg hmx, if_neg hmx, hfind2, hmax]
    rfl

/-- Claim C2, counterexample to the original statement: on
`"add new create fix bug resolve correct"` the category `fix` has the
strictly highest raw keyword count (4, against 3 for `feat`), but the code
returns `feat`: both confidences cap at 0.9 and the earlier category wins
the strict comparison. -/
theorem c2_counterexample :
    classify_commit "add new create fix bug resolve correct" =
      Except.ok ⟨"feat", none, "add new create fix bug resolve correct", 90⟩ ∧
    countKw (kwOf "feat") ("add new create fix bug resolve correct".data.map Char.toLower) = 3 ∧
    countKw (kwOf "fix") ("add new create fix bug resolve correct".data.map Char.toLower) = 4 :=
  ⟨rfl, by decide, by decide⟩

/-- Witness for C2 at `"hello"` (no keyword hits, fallback default). -/
theorem c2_fallback_winner_witness :
    (pyStripL "hello".data ≠ [] ∧
      COMMIT_TYPES.find? (fun ti => matchesConv ti.1.data (pyStripL "hello".data)) = none) ∧
    classify_commit "hello" = Except.ok
      ⟨specBest (pyStripL "hello".data), none, String.mk (pyStripL "hello".data),
        specConf (pyStripL "hello".data)⟩ :=
  ⟨⟨by decide, by decide⟩, c2_fallback_winner "hello" (by decide) (by decide)⟩

/-- Claim C3: every input that is non-empty after trimming produces
exactly one result; its category is one of the table's keys; its
confidence lies in [0.5, 0.95]. -/
theorem c3_result_invariant (msg : String) (h : pyStripL msg.data ≠ []) :
    ∃ r, classify_commit msg = Except.ok r ∧
      r.type ∈ COMMIT_TYPES.map Prod.fst ∧ 50 ≤ r.confidence ∧ r.confidence ≤ 95 := by
  rw [classify_commit_eq, if_neg h]
  cases hf : COMMIT_TYPES.find? (fun ti => matchesConv ti.1.data (pyStripL msg.data)) with
  | some ti =>
    simp only [hf]
    refine ⟨⟨ti.1, (extract_scope (pyStripL msg.data)).map String.mk,
        String.mk (stripHeader (pyStripL msg.data)), 95⟩, rfl,
      List.mem_map_of_mem Prod.fst (List.mem_of_find?_eq_some hf), ?_, ?_⟩
    · show (50 : Nat) ≤ 95
      omega
    · show (95 : Nat) ≤ 95
      omega
  | none =>
    simp only [hf]
    refine ⟨⟨(fallbackBest (pyStripL msg.data)).1, none, String.mk (pyStripL msg.data),
        max (fallbackBest (pyStripL msg.data)).2 50⟩, rfl, ?_, ?_, ?_⟩
    · show (fallbackBest (pyStripL msg.data)).1 ∈ COMMIT_TYPES.map Prod.fst
      rcases fallback_fst_cases (pyStripL msg.data) COMMIT_TYPES ("chore", 0) with h1 | ⟨a, ha, h1⟩
      · have h2 : (fallbackBest (pyStripL msg.data)).1 = "chore" := h1
        rw [h2]
        decide
      · have h2 : (fallbackBest (pyStripL msg.data)).1 = a.1 := h1
        rw [h2]
        exact List.mem_map_of_mem Prod.fst ha
    · show (50 : Nat) ≤ max (fallbackBest (pyStripL msg.data)).2 50
      exact Nat.le_max_right _ 50
    · show max (fallbackBest (pyStripL msg.data)).2 50 ≤ 95
      have hle : (fallbackBest (pyStripL msg.data)).2 ≤ max 0 95 :=
        fallback_snd_le (pyStripL msg.data) COMMIT_TYPES ("chore", 0)
      simp at hle
      exact Nat.max_le.mpr ⟨hle, by omega⟩

/-- Witness for C3 at `"refactor database"`. -/
theorem c3_result_invariant_witness :
    pyStripL "refactor database".data ≠ [] ∧
    ∃ r, classify_commit "refactor database" = Except.ok r ∧
      r.type ∈ COMMIT_TYPES.map Prod.fst ∧ 50 ≤ r.confidence ∧ r.confidence ≤ 95 :=
  ⟨by decide, c3_result_invariant "refactor database" (by decide)⟩

/-- Claim C4: `classify_commit` fails (with the empty-input error) exactly
when the input is empty after trimming — in particular on `""` and
`"   "` — and succeeds on every input that is non-empty after trimming:
there is no other failure path. -/
theorem c4_error_exactly_on_blank :
    (∀ msg : String,
        (pyStripL msg.data = [] ∧ classify_commit msg = Except.error "Empty commit message") ∨
        (pyStripL msg.data ≠ [] ∧ ∃ r, classify_commit msg = Except.ok r)) ∧
    classify_commit "" = Except.error "Empty commit message" ∧
    classify_commit "   " = Except.error "Empty commit message" := by
  refine ⟨?_, rfl, rfl⟩
  intro msg
  by_cases h : pyStripL msg.data = []
  · exact Or.inl ⟨h, by rw [classify_commit_eq, if_pos h]⟩
  · refine Or.inr ⟨h, ?_⟩
    rw [classify_commit_eq, if_neg h]
    cases hf : COMMIT_TYPES.find? (fun ti => matchesConv ti.1.data (pyStripL msg.data)) with
    | some ti =>
      exact ⟨⟨ti.1, (extract_scope (pyStripL msg.data)).map String.mk,
        String.mk (stripHeader (pyStripL msg.data)), 95⟩, rfl⟩
    | none =>
      exact ⟨⟨(fallbackBest (pyStripL msg.data)).1, none, String.mk (pyStripL msg.data),
        max (fallbackBest (pyStripL msg.data)).2 50⟩, rfl⟩

/-- Claim C5: on the conventional path the scope is the first
parenthesized group found anywhere in the trimmed message by the generic
`\(([^)]+)\)` search (none if absent); on the keyword-fallback path the
scope is always none and the description is the full trimmed message. -/
theorem c5_scope_rules (msg : String) (r : CResult)
    (h : classify_commit msg = Except.ok r) :
    (COMMIT_TYPES.find? (fun ti => matchesConv ti.1.data (pyStripL msg.data)) ≠ none →
        r.scope = (extract_scope (pyStripL msg.data)).map String.mk) ∧
    (COMMIT_TYPES.find? (fun ti => matchesConv ti.1.data (pyStripL msg.data)) = none →
        r.scope = none ∧ r.description = String.mk (pyStripL msg.data)) := by
  rw [classify_commit_eq] at h
  by_cases hm : pyStripL msg.data = []
  · rw [if_pos hm] at h
    exact absurd h (by simp)
  · rw [if_neg hm] at h
    cases hf : COMMIT_TYPES.find? (fun ti => matchesConv ti.1.data (pyStripL msg.data)) with
    | some ti =>
      simp only [hf] at h
      injection h with h'
      subst h'
      exact ⟨fun _ => rfl, fun hc => absurd hc (by simp)⟩
    | none =>
      simp only [hf] at h
      injection h with h'
      subst h'
      exact ⟨fun hc => absurd rfl hc, fun _ => ⟨rfl, rfl⟩⟩

/-- Witness for C5 at `"fix(api): resolve CORS issue"`. -/
theorem c5_scope_rules_witness :
    classify_commit "fix(api): resolve CORS issue" =
      Except.ok ⟨"fix", some "api", "resolve CORS issue", 95⟩ ∧
    ((COMMIT_TYPES.find?
        (fun ti => matchesConv ti.1.data (pyStripL "fix(api): resolve CORS issue".data)) ≠ none →
        (⟨"fix", some "api", "resolve CORS issue", 95⟩ : CResult).scope =
          (extract_scope (pyStripL "fix(api): resolve CORS issue".data)).map String.mk) ∧
      (COMMIT_TYPES.find?
        (fun ti => matchesConv ti.1.data (pyStripL "fix(api): resolve CORS issue".data)) = none →
        (⟨"fix", some "api", "resolve CORS issue", 95⟩ : CResult).scope = none ∧
        (⟨"fix", some "api", "resolve CORS issue", 95⟩ : CResult).description =
          String.mk (pyStripL "fix(api): resolve CORS issue".data))) :=
  ⟨rfl, c5_scope_rules "fix(api): resolve CORS issue" ⟨"fix", some "api", "resolve CORS issue", 95⟩ rfl⟩

/-- Claim C7: `classify_batch` returns one record per input in input
order (record i is exactly the processing of message i, so a failing item
— e.g. an empty message — yields its own error record and cannot affect
any other item), every record carries its original message, and the total
equals the input length. -/
theorem c7_batch_shape (msgs : List String) (i : Nat) :
    (classify_batch msgs).1.length = msgs.length ∧
    (classify_batch msgs).2 = msgs.length ∧
    (classify_batch msgs).1[i]? = (msgs[i]?).map batchItem ∧
    ((classify_batch msgs).1[i]?).map BatchItem.message = msgs[i]? := by
  have hbm : ∀ s, (batchItem s).message = s := by
    intro s
    unfold batchItem
    cases hcc : classify_commit s with
    | ok c => rfl
    | error e => rfl
  refine ⟨by simp [classify_batch], by simp [classify_batch],
    by simp [classify_batch], ?_⟩
  simp only [classify_batch, List.getElem?_map]
  cases msgs[i]? with
  | none => rfl
  | some s => simp [hbm]

theorem convSugg_ne_short (c : CResult) : convSugg c ≠ shortSugg := by
  intro h
  have h2 : (convSugg c).data.take 3 = shortSugg.data.take 3 := by rw [h]
  have h3 : (convSugg c).data.take 3 = ['C', 'o', 'n'] := rfl
  have h4 : shortSugg.data.take 3 = ['C', 'o', 'm'] := rfl
  rw [h3, h4] at h2
  exact absurd h2 (by decide)

theorem convSugg_ne_long (c : CResult) : convSugg c ≠ longSugg := by
  intro h
  have h2 : (convSugg c).data.take 3 = longSugg.data.take 3 := by rw [h]
  have h3 : (convSugg c).data.take 3 = ['C', 'o', 'n'] := rfl
  have h4 : longSugg.data.take 3 = ['C', 'o', 'm'] := rfl
  rw [h3, h4] at h2
  exact absurd h2 (by decide)

/-- Claim C6 (amended): the length checks in `generate_suggestions` use
the raw message as passed by the callers, not the trimmed one — the
"too short" suggestion appears exactly when the raw length is below 10,
and the "too long" suggestion exactly when the raw length exceeds 100. -/
theorem c6_length_suggestions (msg : String) (c : CResult) :
    (shortSugg ∈ generate_suggestions msg c ↔ msg.length < 10) ∧
    (longSugg ∈ generate_suggestions msg c ↔ 100 < msg.length) := by
  have h1 : ¬ (shortSugg = convSugg c) := fun h => convSugg_ne_short c h.symm
  have h2 : ¬ (longSugg = convSugg c) := fun h => convSugg_ne_long c h.symm
  have h3 : ¬ (shortSugg = longSugg) := by decide
  have h4 : ¬ (longSugg = shortSugg) := by decide
  have h5 : ¬ (shortSugg = impSugg) := by decide
  have h6 : ¬ (longSugg = impSugg) := by decide
  have h7 : ¬ (shortSugg = capSugg) := by decide
  have h8 : ¬ (longSugg = capSugg) := by decide
  unfold generate_suggestions
  by_cases ha : matchesConv c.type.data msg.data = true <;>
    by_cases hb : msg.length < 10 <;>
      by_cases hc2 : 100 < msg.length <;>
        by_cases hd : impCheck c.description.data = true <;>
          by_cases he : capCheck c.description.data = true <;>
            simp [ha, hb, hc2, hd, he, h1, h2, h3, h4, h5, h6, h7, h8]

/-- Claim C6, counterexample to the original statement: the raw input
`"fix bug       "` trims to the 7-character `"fix bug"` (< 10), but the
code measures the raw 14-character message, so no "too short" suggestion
is produced. -/
theorem c6_counterexample :
    (pyStripL "fix bug       ".data).length < 10 ∧
    classify_commit "fix bug       " = Except.ok ⟨"fix", none, "fix bug", 80⟩ ∧
    shortSugg ∉ generate_suggestions "fix bug       " ⟨"fix", none, "fix bug", 80⟩ :=
  ⟨by decide, rfl, by decide⟩

/-- Claim C8: on `"feat: Added login"` the suggestion list contains both
the imperative-mood suggestion (the description's first word starts with
"added") and the lowercase suggestion (the description starts with an
upper-case letter). -/
theorem c8_feat_added_login :
    ∃ p, classify_message "feat: Added login" = Except.ok p ∧
      impSugg ∈ p.2 ∧ capSugg ∈ p.2 :=
  ⟨(⟨"feat", none, "Added login", 95⟩, [impSugg, capSugg]), rfl, by decide, by decide⟩

/-- Claim C9: when no category's conventional pattern matched the trimmed
message (the keyword-fallback pass), the 0.95 branch of
`calculate_confidence` cannot fire for any table category, so every
confidence it can return there is at most 0.9. -/
theorem c9_fallback_confidence (msg : String) (ti : String × List String)
    (h1 : COMMIT_TYPES.find? (fun tj => matchesConv tj.1.data (pyStripL msg.data)) = none)
    (h2 : ti ∈ COMMIT_TYPES) :
    calculate_confidence (pyStripL msg.data) ti.1.data ti.2 ≤ 90 := by
  have hnm : ¬ (matchesConv ti.1.data (pyStripL msg.data) = true) :=
    List.find?_eq_none.mp h1 ti h2
  unfold calculate_confidence
  rw [if_neg hnm]
  by_cases hk : countKw ti.2 ((pyStripL msg.data).map Char.toLower) > 0
  · rw [if_pos hk]
    exact Nat.min_le_right _ 90
  · rw [if_neg hk]
    omega

/-- Witness for C9 at `"hello world"` and the `feat` table entry. -/
theorem c9_fallback_confidence_witness :
    (COMMIT_TYPES.find? (fun tj => matchesConv tj.1.data (pyStripL "hello world".data)) = none ∧
      ("feat", ["add", "new", "implement", "create", "introduce"]) ∈ COMMIT_TYPES) ∧
    calculate_confidence (pyStripL "hello world".data) "feat".data
      ["add", "new", "implement", "create", "introduce"] ≤ 90 :=
  ⟨⟨by decide, by decide⟩,
    c9_fallback_confidence "hello world" ("feat", ["add", "new", "implement", "create", "introduce"])
      (by decide) (by decide)⟩

/-- Claim C10: every successful classification carries a non-empty
description with no leading and no trailing whitespace: the fallback
description is the trimmed message itself, and on the conventional path
the pattern's tail plus the greedy whitespace strip after the first colon
leave a non-empty, non-whitespace-bounded remainder. -/
theorem c10_description_trimmed (msg : String) (r : CResult)
    (h : classify_commit msg = Except.ok r) :
    r.description.data ≠ [] ∧
    (∀ c rest, r.description.data = c :: rest → isWs c = false) ∧
    (∀ c, r.description.data.getLast? = some c → isWs c = false) := by
  rw [classify_commit_eq] at h
  by_cases hm : pyStripL msg.data = []
  · rw [if_pos hm] at h
    exact absurd h (by simp)
  · rw [if_neg hm] at h
    have hlast : ∀ c, (pyStripL msg.data).getLast? = some c → isWs c = false :=
      fun c hc => pyStripL_last msg.data c hc
    cases hf : COMMIT_TYPES.find? (fun ti => matchesConv ti.1.data (pyStripL msg.data)) with
    | some ti =>
      simp only [hf] at h
      have hpt : matchesConv ti.1.data (pyStripL msg.data) = true := by
        have := List.find?_some hf
        simpa using this
      have hOK : nameOK ti.1.data = true := table_namesOK ti (List.mem_of_find?_eq_some hf)
      obtain ⟨hne, hhd, hlst⟩ := stripHeader_good ti.1.data _ hOK hpt hlast
      injection h with h'
      subst h'
      exact ⟨hne, hhd, hlst⟩
    | none =>
      simp only [hf] at h
      injection h with h'
      subst h'
      refine ⟨hm, ?_, ?_⟩
      · intro c rest hc
        exact pyStripL_head msg.data c rest hc
      · intro c hc
        exact pyStripL_last msg.data c hc

/-- Witness for C10 at `"feat: x"`. -/
theorem c10_description_trimmed_witness :
    classify_commit "feat: x" = Except.ok ⟨"feat", none, "x", 95⟩ ∧
    (("x" : String).data ≠ [] ∧
      (∀ c rest, ("x" : String).data = c :: rest → isWs c = false) ∧
      (∀ c, ("x" : String).data.getLast? = some c → isWs c = false)) :=
  ⟨rfl, c10_description_trimmed "feat: x" ⟨"feat", none, "x", 95⟩ rfl⟩

end CommitClassifier
